import Mathlib

set_option linter.unusedSectionVars false

/-!
Shallow embedding of `src/association_rule_mining.py`.

The program mines association rules from a list of transactions (each a set
of items).  We model:
  * items by an arbitrary linearly ordered type `α` with decidable equality
    (the source uses lowercase strings; `sorted` needs the order),
  * Python `set`/`frozenset` of items by `Finset α`,
  * Python floats by `ℚ` (every number the program manipulates is a ratio of
    small integers; the identities and comparisons the spec states are about
    the exact arithmetic the code performs),
  * `itertools.combinations` by an explicit `combinations` function emitting
    the same tuples in the same order,
  * the `support_cache` dict by an association list in insertion order
    (its keys are pairwise distinct, so dict and association-list lookup
    agree),
  * `list.sort(key=..., reverse=True)` by a stable insertion sort with the
    reversed lexicographic key order, matching CPython's stable sort with
    `reverse=True`.
Fallible operations (Python's `ZeroDivisionError` on `count / 0`) are made
explicit with `Except`-valued variants.
-/

namespace AssocRules

/-- Model of `itertools.combinations`: every strictly increasing selection of
`k` elements of `l` (as a subsequence), in the order `itertools.combinations`
emits them: those containing the head first, lexicographically by position. -/
def combinations {α : Type} : List α → ℕ → List (List α)
  | _, 0 => [[]]
  | [], _ + 1 => []
  | x :: xs, k + 1 =>
      ((combinations xs k).map fun c => x :: c) ++ combinations xs (k + 1)

variable {α : Type} [LinearOrder α] [DecidableEq α]

/-- Python's `sorted` on a multiset of items: the unique `≤`-sorted list with
the same multiplicities (implemented by a stable insertion sort, which is
structurally recursive and hence kernel-computable). -/
def msortLE (m : Multiset α) : List α :=
  Quot.liftOn m (fun l => List.insertionSort (· ≤ ·) l) fun l1 l2 h =>
    List.eq_of_perm_of_sorted
      ((List.perm_insertionSort _ l1).trans (h.trans (List.perm_insertionSort _ l2).symm))
      (List.sorted_insertionSort _ l1) (List.sorted_insertionSort _ l2)

/-- Python's `sorted` applied to a set of items, as in `sorted(items)` on
line 33 and `sorted(itemset)` on line 61 of the source. -/
def sortedList (s : Finset α) : List α :=
  msortLE s.val

/-- The item universe: `set().union(*transactions)` in `all_itemsets`
(line 33 of the source). -/
def itemUniverse (transactions : List (Finset α)) : Finset α :=
  transactions.foldr (fun t u => t ∪ u) ∅

/-- `calculate_support` (source lines 25-28):
count of transactions containing `itemset`, divided by the number of
transactions.  Total model over `ℚ`; the `ZeroDivisionError` Python raises on
an empty transaction list is recorded by `calculate_supportE` below, which
agrees with this function whenever the list is non-empty. -/
def calculate_support (transactions : List (Finset α)) (itemset : Finset α) : ℚ :=
  ((transactions.filter fun transaction => itemset ⊆ transaction).length : ℚ) /
    (transactions.length : ℚ)

/-- Python's true division `a / b`: raises `ZeroDivisionError` when `b = 0`. -/
def pydivQ (a b : ℚ) : Except String ℚ :=
  if b = 0 then Except.error "ZeroDivisionError: division by zero"
  else Except.ok (a / b)

/-- `calculate_support` with Python's fallibility made explicit: the division
on line 28 raises `ZeroDivisionError` when `len(transactions) = 0`. -/
def calculate_supportE (transactions : List (Finset α)) (itemset : Finset α) :
    Except String ℚ :=
  pydivQ ((transactions.filter fun transaction => itemset ⊆ transaction).length : ℚ)
    (transactions.length : ℚ)

/-- `all_itemsets` (source lines 31-36): for each `size` in
`range(min_size, max_size + 1)`, every combination of that size drawn from the
sorted item universe, converted to a set. -/
def all_itemsets (transactions : List (Finset α)) (min_size max_size : ℕ) :
    List (Finset α) :=
  (List.range' min_size (max_size + 1 - min_size) 1).flatMap fun size =>
    (combinations (sortedList (itemUniverse transactions)) size).map
      fun combo => combo.toFinset

/-- The `support_cache` dict (source lines 49-52), as an association list in
insertion order.  Its keys (the enumerated itemsets) are pairwise distinct, so
association-list lookup agrees with dict lookup. -/
def support_cache (transactions : List (Finset α)) : List (Finset α × ℚ) :=
  (all_itemsets transactions 1 3).map fun itemset =>
    (itemset, calculate_support transactions itemset)

/-- Dict lookup `cache[key]`.  A missing key raises `KeyError` in Python; the
lookups `generate_rules` performs always succeed (`claim6` below), so the
default value of the total model is never produced. -/
def cacheGet (cache : List (Finset α × ℚ)) (key : Finset α) : ℚ :=
  (List.lookup key cache).getD 0

/-- One rule tuple `(antecedent, consequent, support, confidence, lift)`
(source line 47). -/
structure Rule (α : Type) where
  antecedent : Finset α
  consequent : Finset α
  support : ℚ
  confidence : ℚ
  lift : ℚ
  deriving DecidableEq

/-- The sort key of line 74: `(x[4], x[3], x[2])`, i.e.
`(lift, confidence, support)`. -/
def ruleKey (r : Rule α) : ℚ × ℚ × ℚ :=
  (r.lift, r.confidence, r.support)

/-- Lexicographic order on sort keys, as Python compares the tuples
`(lift, confidence, support)`. -/
def keyLE (k1 k2 : ℚ × ℚ × ℚ) : Prop :=
  k1.1 < k2.1 ∨
    (k1.1 = k2.1 ∧
      (k1.2.1 < k2.2.1 ∨ (k1.2.1 = k2.2.1 ∧ k1.2.2 ≤ k2.2.2)))

instance (k1 k2 : ℚ × ℚ × ℚ) : Decidable (keyLE k1 k2) := by
  unfold keyLE; infer_instance

/-- `r1` sorts no later than `r2` under `reverse=True`: its key is
lexicographically at least `r2`'s. -/
def ruleGE (r1 r2 : Rule α) : Prop :=
  keyLE (ruleKey r2) (ruleKey r1)

instance (r1 r2 : Rule α) : Decidable (ruleGE r1 r2) := by
  unfold ruleGE; infer_instance

/-- `generate_rules` (source lines 39-75): build the support cache, then for
every cached itemset of size ≥ 2 with support ≥ `min_support`, split it into
every non-trivial (antecedent, consequent) partition, compute confidence and
lift, retain the rule when confidence ≥ `min_confidence`, and finally sort by
`(lift, confidence, support)` descending (stably, as CPython does). -/
def generate_rules (transactions : List (Finset α))
    (min_support min_confidence : ℚ) : List (Rule α) :=
  let cache := support_cache transactions
  let rules := cache.flatMap fun p =>
    if p.1.card < 2 ∨ p.2 < min_support then []
    else
      (List.range' 1 (p.1.card - 1) 1).flatMap fun antecedent_size =>
        (combinations (sortedList p.1) antecedent_size).filterMap
          fun antecedent_tuple =>
            let antecedent := antecedent_tuple.toFinset
            let consequent := p.1 \ antecedent
            let antecedent_support := cacheGet cache antecedent
            let consequent_support := cacheGet cache consequent
            let confidence := p.2 / antecedent_support
            let lift := confidence / consequent_support
            if min_confidence ≤ confidence then
              some (Rule.mk antecedent consequent p.2 confidence lift)
            else none
  List.insertionSort ruleGE rules

/-! ### Text preprocessing (`preprocess_texts`, source lines 16-22)

Raw text records are modelled as lists of characters. -/

/-- The punctuation characters of `token.strip(".,!?;:")` on line 20. -/
def stripChars : List Char := ['.', ',', '!', '?', ';', ':']

/-- Python `str.strip(".,!?;:")`: remove leading and trailing characters
belonging to `stripChars`. -/
def pyStrip (token : List Char) : List Char :=
  ((token.dropWhile (· ∈ stripChars)).reverse.dropWhile (· ∈ stripChars)).reverse

/-- Python `str.lower()` (per-character lowercasing). -/
def pyLower (token : List Char) : List Char :=
  token.map Char.toLower

/-- The ASCII whitespace characters Python `str.split()` splits on. -/
def isSpaceChar (c : Char) : Bool :=
  c = ' ' ∨ c = '\t' ∨ c = '\n' ∨ c = '\r' ∨ c = '\x0b' ∨ c = '\x0c'

/-- Helper for `splitWs`; `acc` holds the current in-progress token,
reversed. -/
def splitWsAux : List Char → List Char → List (List Char)
  | [], acc => if acc.isEmpty then [] else [acc.reverse]
  | c :: cs, acc =>
      if isSpaceChar c then
        if acc.isEmpty then splitWsAux cs []
        else acc.reverse :: splitWsAux cs []
      else splitWsAux cs (c :: acc)

/-- Python `str.split()` with no separator: split on runs of whitespace; no
empty tokens are produced. -/
def splitWs (text : List Char) : List (List Char) :=
  splitWsAux text []

/-- `preprocess_texts` (source lines 16-22): one transaction per record; each
record is whitespace-split, each token is stripped of surrounding punctuation
and lowercased, tokens that strip to nothing are dropped, and the result is
collected into a set. -/
def preprocess_texts (texts : List (List Char)) : List (Finset (List Char)) :=
  texts.map fun text =>
    (((splitWs text).filter fun token => !(pyStrip token).isEmpty).map
      fun token => pyLower (pyStrip token)).toFinset

/-- A tiny concrete dataset (three transactions over items `0` and `1`) used
to instantiate the theorems below at executable inputs. -/
def exT : List (Finset ℕ) := [{0, 1}, {0, 1}, {0}]

/-- One of the two rule tuples `generate_rules exT (1/4) (1/2)` returns. -/
def exR : Rule ℕ := ⟨{1}, {0}, 2/3, 1, 1⟩

/-! ### Lemmas about `combinations` -/

lemma combinations_zero {α : Type} (l : List α) : combinations l 0 = [[]] := by
  cases l <;> rfl

lemma combinations_nil_succ {α : Type} (k : ℕ) :
    combinations ([] : List α) (k + 1) = [] := rfl

lemma combinations_cons_succ {α : Type} (x : α) (xs : List α) (k : ℕ) :
    combinations (x :: xs) (k + 1) =
      ((combinations xs k).map fun c => x :: c) ++ combinations xs (k + 1) := rfl

/-- `combinations l k` enumerates exactly the length-`k` subsequences of `l`. -/
lemma mem_combinations {α : Type} {l : List α} {k : ℕ} {c : List α} :
    c ∈ combinations l k ↔ List.Sublist c l ∧ c.length = k := by
  induction l generalizing k c with
  | nil =>
    cases k with
    | zero =>
      rw [combinations_zero]
      simp only [List.mem_singleton, List.length_eq_zero, List.sublist_nil, and_self]
    | succ k =>
      rw [combinations_nil_succ]
      simp only [List.not_mem_nil, false_iff, not_and, List.sublist_nil]
      rintro rfl
      simp
  | cons x xs ih =>
    cases k with
    | zero =>
      rw [combinations_zero]
      simp only [List.mem_singleton, List.length_eq_zero]
      constructor
      · rintro rfl
        exact ⟨List.nil_sublist _, rfl⟩
      · rintro ⟨-, rfl⟩
        rfl
    | succ k =>
      rw [combinations_cons_succ]
      simp only [List.mem_append, List.mem_map, ih]
      constructor
      · rintro (⟨c', ⟨hs, hlen⟩, rfl⟩ | ⟨hs, hlen⟩)
        · exact ⟨List.Sublist.cons₂ x hs, by simp [hlen]⟩
        · exact ⟨List.Sublist.cons x hs, hlen⟩
      · rintro ⟨hs, hlen⟩
        rcases List.sublist_cons_iff.mp hs with h | ⟨r, rfl, hr⟩
        · exact Or.inr ⟨h, hlen⟩
        · exact Or.inl ⟨r, ⟨hr, by simpa using hlen⟩, rfl⟩

/-! ### Lemmas about `msortLE` / `sortedList` -/

lemma mem_msortLE {m : Multiset α} {a : α} : a ∈ msortLE m ↔ a ∈ m := by
  induction m using Quotient.inductionOn with
  | h l => exact (List.perm_insertionSort _ l).mem_iff.trans Multiset.mem_coe.symm

lemma sorted_msortLE (m : Multiset α) : (msortLE m).Sorted (· ≤ ·) := by
  induction m using Quotient.inductionOn with
  | h l => exact List.sorted_insertionSort _ l

lemma nodup_msortLE {m : Multiset α} (hm : m.Nodup) : (msortLE m).Nodup := by
  induction m using Quotient.inductionOn with
  | h l => exact (List.perm_insertionSort _ l).nodup_iff.mpr (Multiset.coe_nodup.mp hm)

lemma mem_sortedList {s : Finset α} {a : α} : a ∈ sortedList s ↔ a ∈ s :=
  mem_msortLE

lemma sorted_sortedList (s : Finset α) : (sortedList s).Sorted (· ≤ ·) :=
  sorted_msortLE _

lemma nodup_sortedList (s : Finset α) : (sortedList s).Nodup :=
  nodup_msortLE s.nodup

lemma toFinset_sortedList (s : Finset α) : (sortedList s).toFinset = s := by
  ext a
  rw [List.mem_toFinset, mem_sortedList]

lemma sortedList_sublist {s t : Finset α} (h : s ⊆ t) :
    List.Sublist (sortedList s) (sortedList t) := by
  refine List.sublist_of_subperm_of_sorted ?_ (sorted_sortedList s) (sorted_sortedList t)
  refine List.subperm_of_subset (nodup_sortedList s) fun a ha => ?_
  exact mem_sortedList.mpr (h (mem_sortedList.mp ha))

lemma length_sortedList (s : Finset α) : (sortedList s).length = s.card := by
  rw [← toFinset_sortedList s, List.toFinset_card_of_nodup (nodup_sortedList s),
    toFinset_sortedList s]

/-! ### Lemmas about `all_itemsets` -/

/-- Membership characterisation of the itemset enumeration: exactly the
subsets of the item universe whose size lies in `[min_size, max_size]`. -/
lemma mem_all_itemsets {transactions : List (Finset α)} {mn mx : ℕ} {s : Finset α} :
    s ∈ all_itemsets transactions mn mx ↔
      s ⊆ itemUniverse transactions ∧ mn ≤ s.card ∧ s.card ≤ mx := by
  unfold all_itemsets
  simp only [List.mem_flatMap, List.mem_map, List.mem_range', mem_combinations]
  constructor
  · rintro ⟨size, ⟨i, hi, rfl⟩, combo, ⟨hsub, hlen⟩, rfl⟩
    have hnd : combo.Nodup := hsub.nodup (nodup_sortedList _)
    have hcard : combo.toFinset.card = combo.length :=
      List.toFinset_card_of_nodup hnd
    refine ⟨?_, ?_, ?_⟩
    · intro a ha
      rw [List.mem_toFinset] at ha
      exact mem_sortedList.mp (hsub.subset ha)
    · omega
    · omega
  · rintro ⟨hsub, hmn, hmx⟩
    refine ⟨s.card, ⟨s.card - mn, by omega, by omega⟩, sortedList s,
      ⟨?_, length_sortedList s⟩, toFinset_sortedList s⟩
    exact sortedList_sublist hsub

/-! ### Lemmas about the support cache -/

lemma lookup_map_self {β γ : Type} [DecidableEq β] {f : β → γ} {k : β} {l : List β}
    (hk : k ∈ l) :
    List.lookup k (l.map fun s => (s, f s)) = some (f k) := by
  induction l with
  | nil => cases hk
  | cons a l ih =>
    rw [List.map_cons]
    by_cases hka : k = a
    · subst hka
      simp [List.lookup]
    · have hkl : k ∈ l := by
        rcases List.mem_cons.mp hk with h' | h'
        · exact absurd h' hka
        · exact h'
      have hbeq : (k == a) = false := beq_eq_false_iff_ne.mpr hka
      simpa [List.lookup, hbeq] using ih hkl

lemma mem_support_cache {transactions : List (Finset α)} {p : Finset α × ℚ} :
    p ∈ support_cache transactions ↔
      p.1 ∈ all_itemsets transactions 1 3 ∧
        p.2 = calculate_support transactions p.1 := by
  obtain ⟨s, v⟩ := p
  unfold support_cache
  simp only [List.mem_map, Prod.mk.injEq]
  constructor
  · rintro ⟨t, ht, rfl, rfl⟩
    exact ⟨ht, rfl⟩
  · rintro ⟨h1, rfl⟩
    exact ⟨s, h1, rfl, rfl⟩

lemma lookup_support_cache {transactions : List (Finset α)} {s : Finset α}
    (hs : s ∈ all_itemsets transactions 1 3) :
    List.lookup s (support_cache transactions) =
      some (calculate_support transactions s) :=
  lookup_map_self hs

lemma cacheGet_support_cache {transactions : List (Finset α)} {s : Finset α}
    (hs : s ∈ all_itemsets transactions 1 3) :
    cacheGet (support_cache transactions) s = calculate_support transactions s := by
  unfold cacheGet
  rw [lookup_support_cache hs]
  rfl

/-! ### Lemmas about `calculate_support` -/

lemma support_nonneg (transactions : List (Finset α)) (s : Finset α) :
    0 ≤ calculate_support transactions s := by
  unfold calculate_support
  positivity

/-- Antitonicity of support: a transaction containing `B` contains every
subset `A` of `B`. -/
lemma support_mono {transactions : List (Finset α)} {A B : Finset α}
    (hAB : A ⊆ B) :
    calculate_support transactions B ≤ calculate_support transactions A := by
  unfold calculate_support
  rcases eq_or_ne transactions [] with rfl | hne
  · simp
  · have hlen : (0 : ℚ) < (transactions.length : ℚ) := by
      exact_mod_cast List.length_pos.mpr hne
    rw [div_le_div_iff_of_pos_right hlen]
    have hsub : List.Sublist
        (transactions.filter fun t => B ⊆ t)
        (transactions.filter fun t => A ⊆ t) := by
      refine List.monotone_filter_right transactions (fun t ht => ?_)
      simp only [decide_eq_true_eq] at ht ⊢
      exact hAB.trans ht
    exact_mod_cast hsub.length_le

/-! ### The sort-key order -/

lemma keyLE_total (k1 k2 : ℚ × ℚ × ℚ) : keyLE k1 k2 ∨ keyLE k2 k1 := by
  unfold keyLE
  rcases lt_trichotomy k1.1 k2.1 with h | h | h
  · exact Or.inl (Or.inl h)
  · rcases lt_trichotomy k1.2.1 k2.2.1 with h2 | h2 | h2
    · exact Or.inl (Or.inr ⟨h, Or.inl h2⟩)
    · rcases le_total k1.2.2 k2.2.2 with h3 | h3
      · exact Or.inl (Or.inr ⟨h, Or.inr ⟨h2, h3⟩⟩)
      · exact Or.inr (Or.inr ⟨h.symm, Or.inr ⟨h2.symm, h3⟩⟩)
    · exact Or.inr (Or.inr ⟨h.symm, Or.inl h2⟩)
  · exact Or.inr (Or.inl h)

lemma keyLE_trans {k1 k2 k3 : ℚ × ℚ × ℚ}
    (h12 : keyLE k1 k2) (h23 : keyLE k2 k3) : keyLE k1 k3 := by
  unfold keyLE at h12 h23 ⊢
  rcases h12 with h | ⟨e1, h12'⟩
  · rcases h23 with h' | ⟨e', h23'⟩
    · exact Or.inl (h.trans h')
    · exact Or.inl (h.trans_eq e')
  · rcases h23 with h' | ⟨e', h23'⟩
    · exact Or.inl (e1.trans_lt h')
    · refine Or.inr ⟨e1.trans e', ?_⟩
      rcases h12' with h2 | ⟨e2, h3⟩
      · rcases h23' with h2' | ⟨e2', h3'⟩
        · exact Or.inl (h2.trans h2')
        · exact Or.inl (h2.trans_eq e2')
      · rcases h23' with h2' | ⟨e2', h3'⟩
        · exact Or.inl (e2.trans_lt h2')
        · exact Or.inr ⟨e2.trans e2', h3.trans h3'⟩

instance : IsTotal (Rule α) ruleGE :=
  ⟨fun r1 r2 => keyLE_total (ruleKey r2) (ruleKey r1)⟩

instance : IsTrans (Rule α) ruleGE :=
  ⟨fun _ _ _ h12 h23 => keyLE_trans h23 h12⟩

/-! ### Membership elimination for `generate_rules` -/

/-- Everything true of a rule tuple produced by `generate_rules`: it arises
from a cached itemset `s` of size ≥ 2 that passed the `min_support` gate,
split at a non-trivial antecedent, with the metric fields computed from the
cache exactly as lines 63-72 of the source do. -/
lemma generate_rules_mem_elim {transactions : List (Finset α)} {ms mc : ℚ}
    {r : Rule α} (hr : r ∈ generate_rules transactions ms mc) :
    ∃ s, s ∈ all_itemsets transactions 1 3 ∧ 2 ≤ s.card ∧
      ms ≤ calculate_support transactions s ∧
      r.antecedent ⊆ s ∧ r.antecedent.Nonempty ∧ r.antecedent ≠ s ∧
      r.consequent = s \ r.antecedent ∧
      r.support = calculate_support transactions s ∧
      r.confidence = calculate_support transactions s /
        cacheGet (support_cache transactions) r.antecedent ∧
      mc ≤ r.confidence ∧
      r.lift = r.confidence /
        cacheGet (support_cache transactions) r.consequent := by
  unfold generate_rules at hr
  rw [(List.perm_insertionSort _ _).mem_iff] at hr
  simp only [List.mem_flatMap] at hr
  obtain ⟨⟨s, v⟩, hpmem, hrp⟩ := hr
  rw [mem_support_cache] at hpmem
  obtain ⟨hs, hv⟩ := hpmem
  simp only at hs hv
  subst hv
  by_cases hcond : s.card < 2 ∨ calculate_support transactions s < ms
  · rw [if_pos hcond] at hrp
    exact absurd hrp (List.not_mem_nil _)
  · rw [if_neg hcond] at hrp
    push_neg at hcond
    obtain ⟨hcard2, hsupms⟩ := hcond
    simp only [List.mem_flatMap, List.mem_filterMap, List.mem_range',
      mem_combinations] at hrp
    obtain ⟨asize, ⟨i, hi, hsz⟩, atup, ⟨hsub, hlen⟩, heq⟩ := hrp
    have hnd : atup.Nodup := hsub.nodup (nodup_sortedList s)
    have hcardA : atup.toFinset.card = asize := by
      rw [List.toFinset_card_of_nodup hnd, hlen]
    have hsubA : atup.toFinset ⊆ s := by
      intro a ha
      rw [List.mem_toFinset] at ha
      exact mem_sortedList.mp (hsub.subset ha)
    have hasize1 : 1 ≤ asize := by omega
    have hasizelt : asize < s.card := by omega
    have hneA : atup.toFinset ≠ s := by
      intro h
      rw [h] at hcardA
      omega
    have hNon : atup.toFinset.Nonempty := Finset.card_pos.mp (by omega)
    by_cases hconf : mc ≤ calculate_support transactions s /
        cacheGet (support_cache transactions) atup.toFinset
    · rw [if_pos hconf] at heq
      obtain rfl : _ = r := Option.some.inj heq
      exact ⟨s, hs, hcard2, hsupms, hsubA, hNon, hneA, rfl, rfl, rfl, hconf, rfl⟩
    · rw [if_neg hconf] at heq
      cases heq

/-! ### The claims -/

/-- C1: for every non-empty transaction list and parameters
`min_support > 0` and `min_confidence`, every tuple
`(antecedent, consequent, support, confidence, lift)` returned by
`generate_rules` satisfies: `support` equals `calculate_support` of the
transactions and `antecedent ∪ consequent` and `support ≥ min_support`;
`confidence` equals `support` divided by `calculate_support` of the
antecedent and `confidence ≥ min_confidence`; `lift` equals `confidence`
divided by `calculate_support` of the consequent. -/
theorem claim1 (transactions : List (Finset α)) (min_support min_confidence : ℚ)
    (hts : transactions ≠ []) (hms : 0 < min_support) (r : Rule α)
    (hr : r ∈ generate_rules transactions min_support min_confidence) :
    (r.support = calculate_support transactions (r.antecedent ∪ r.consequent) ∧
      min_support ≤ r.support) ∧
    (r.confidence = r.support / calculate_support transactions r.antecedent ∧
      min_confidence ≤ r.confidence) ∧
    r.lift = r.confidence / calculate_support transactions r.consequent := by
  obtain ⟨s, hs, hcard2, hgate, hsubA, hNon, hneA, hcons, hsupp, hconf, hmc, hlift⟩ :=
    generate_rules_mem_elim hr
  have hsmem := mem_all_itemsets.mp hs
  have hunion : r.antecedent ∪ r.consequent = s := by
    rw [hcons]
    exact Finset.union_sdiff_of_subset hsubA
  have hAmem : r.antecedent ∈ all_itemsets transactions 1 3 := by
    rw [mem_all_itemsets]
    exact ⟨hsubA.trans hsmem.1, Finset.card_pos.mpr hNon,
      le_trans (Finset.card_le_card hsubA) hsmem.2.2⟩
  have hsubC : r.consequent ⊆ s := by
    rw [hcons]
    exact Finset.sdiff_subset
  have hCne : r.consequent.Nonempty := by
    rw [hcons, Finset.sdiff_nonempty]
    intro hcontr
    exact hneA (Finset.Subset.antisymm hsubA hcontr)
  have hCmem : r.consequent ∈ all_itemsets transactions 1 3 := by
    rw [mem_all_itemsets]
    exact ⟨hsubC.trans hsmem.1, Finset.card_pos.mpr hCne,
      le_trans (Finset.card_le_card hsubC) hsmem.2.2⟩
  refine ⟨⟨?_, ?_⟩, ⟨?_, hmc⟩, ?_⟩
  · rw [hunion, hsupp]
  · rw [hsupp]
    exact hgate
  · rw [hconf, hsupp, cacheGet_support_cache hAmem]
  · rw [hlift, cacheGet_support_cache hCmem]

unseal Rat.mul Rat.inv in
theorem claim1_witness :
    (exR.support = calculate_support exT (exR.antecedent ∪ exR.consequent) ∧
      1/4 ≤ exR.support) ∧
    (exR.confidence = exR.support / calculate_support exT exR.antecedent ∧
      1/2 ≤ exR.confidence) ∧
    exR.lift = exR.confidence / calculate_support exT exR.consequent :=
  claim1 exT (1/4) (1/2) (by decide) (by decide) exR (by decide)

/-- C2: for every non-empty transaction list and parameters, every rule
returned by `generate_rules` has disjoint, non-empty antecedent and
consequent whose union is an itemset enumerated by `all_itemsets` over the
same transactions, of size between 2 and 3. -/
theorem claim2 (transactions : List (Finset α)) (min_support min_confidence : ℚ)
    (hts : transactions ≠ []) (r : Rule α)
    (hr : r ∈ generate_rules transactions min_support min_confidence) :
    Disjoint r.antecedent r.consequent ∧
    r.antecedent.Nonempty ∧ r.consequent.Nonempty ∧
    r.antecedent ∪ r.consequent ∈ all_itemsets transactions 1 3 ∧
    2 ≤ (r.antecedent ∪ r.consequent).card ∧
    (r.antecedent ∪ r.consequent).card ≤ 3 := by
  obtain ⟨s, hs, hcard2, hgate, hsubA, hNon, hneA, hcons, hsupp, hconf, hmc, hlift⟩ :=
    generate_rules_mem_elim hr
  have hsmem := mem_all_itemsets.mp hs
  have hunion : r.antecedent ∪ r.consequent = s := by
    rw [hcons]
    exact Finset.union_sdiff_of_subset hsubA
  have hCne : r.consequent.Nonempty := by
    rw [hcons, Finset.sdiff_nonempty]
    intro hcontr
    exact hneA (Finset.Subset.antisymm hsubA hcontr)
  refine ⟨?_, hNon, hCne, ?_, ?_, ?_⟩
  · rw [hcons]
    exact Finset.disjoint_sdiff
  · rw [hunion]
    exact hs
  · rw [hunion]
    exact hcard2
  · rw [hunion]
    exact hsmem.2.2

unseal Rat.mul Rat.inv in
theorem claim2_witness :
    Disjoint exR.antecedent exR.consequent ∧
    exR.antecedent.Nonempty ∧ exR.consequent.Nonempty ∧
    exR.antecedent ∪ exR.consequent ∈ all_itemsets exT 1 3 ∧
    2 ≤ (exR.antecedent ∪ exR.consequent).card ∧
    (exR.antecedent ∪ exR.consequent).card ≤ 3 :=
  claim2 exT (1/4) (1/2) (by decide) exR (by decide)

/-- C3: the list returned by `generate_rules` is sorted in descending
lexicographic order by the key `(lift, confidence, support)`: the key of
every rule is `keyLE`-greater-or-equal to the key of every later rule (in
particular of the adjacent next one), `ruleGE` being exactly that
comparison. -/
theorem claim3 (transactions : List (Finset α)) (min_support min_confidence : ℚ)
    (hts : transactions ≠ []) :
    (generate_rules transactions min_support min_confidence).Sorted ruleGE := by
  simp only [generate_rules]
  exact List.sorted_insertionSort _ _

unseal Rat.mul Rat.inv in
theorem claim3_witness :
    (generate_rules exT (1/4) (1/2)).Sorted ruleGE :=
  claim3 exT (1/4) (1/2) (by decide)

/-- C4: support is antitone in the itemset under the subset order: for every
non-empty transaction list and itemsets `A ⊆ B`,
`calculate_support transactions A ≥ calculate_support transactions B`. -/
theorem claim4 (transactions : List (Finset α)) (A B : Finset α)
    (hts : transactions ≠ []) (hAB : A ⊆ B) :
    calculate_support transactions B ≤ calculate_support transactions A :=
  support_mono hAB

unseal Rat.mul Rat.inv in
theorem claim4_witness :
    calculate_support exT {0, 1} ≤ calculate_support exT {0} :=
  claim4 exT {0} {0, 1} (by decide) (by decide)

/-- C5: with a non-empty transaction list and `min_support > 0`, for every
enumerated itemset that passed the `min_support` gate and every non-trivial
partition of it, the cached antecedent support and consequent support used
as divisors in the confidence and lift computations are strictly
positive. -/
theorem claim5 (transactions : List (Finset α)) (min_support : ℚ)
    (hts : transactions ≠ []) (hms : 0 < min_support) (s : Finset α)
    (hs : s ∈ all_itemsets transactions 1 3) (hcard : 2 ≤ s.card)
    (hgate : min_support ≤ calculate_support transactions s)
    (a : Finset α) (ha : a ⊆ s) (hane : a.Nonempty) (hans : a ≠ s) :
    0 < cacheGet (support_cache transactions) a ∧
    0 < cacheGet (support_cache transactions) (s \ a) := by
  have hsmem := mem_all_itemsets.mp hs
  have hAmem : a ∈ all_itemsets transactions 1 3 := by
    rw [mem_all_itemsets]
    exact ⟨ha.trans hsmem.1, Finset.card_pos.mpr hane,
      le_trans (Finset.card_le_card ha) hsmem.2.2⟩
  have hCne : (s \ a).Nonempty := by
    rw [Finset.sdiff_nonempty]
    intro hcontr
    exact hans (Finset.Subset.antisymm ha hcontr)
  have hCmem : s \ a ∈ all_itemsets transactions 1 3 := by
    rw [mem_all_itemsets]
    exact ⟨Finset.sdiff_subset.trans hsmem.1, Finset.card_pos.mpr hCne,
      le_trans (Finset.card_le_card Finset.sdiff_subset) hsmem.2.2⟩
  have hpos : 0 < calculate_support transactions s := lt_of_lt_of_le hms hgate
  constructor
  · rw [cacheGet_support_cache hAmem]
    exact lt_of_lt_of_le hpos (support_mono ha)
  · rw [cacheGet_support_cache hCmem]
    exact lt_of_lt_of_le hpos (support_mono Finset.sdiff_subset)

unseal Rat.mul Rat.inv in
theorem claim5_witness :
    0 < cacheGet (support_cache exT) {0} ∧
    0 < cacheGet (support_cache exT) ({0, 1} \ {0}) :=
  claim5 exT (1/4) (by decide) (by decide) {0, 1} (by decide) (by decide)
    (by decide) {0} (by decide) (by decide) (by decide)

/-- C6: every cache lookup of the rule-derivation phase succeeds: for every
enumerated itemset of size 2 or 3 and every non-trivial partition into
antecedent and consequent, both parts are keys of the support cache, and the
lookups return their supports. -/
theorem claim6 (transactions : List (Finset α)) (s : Finset α)
    (hs : s ∈ all_itemsets transactions 1 3) (hcard : 2 ≤ s.card)
    (a : Finset α) (ha : a ⊆ s) (hane : a.Nonempty) (hans : a ≠ s) :
    List.lookup a (support_cache transactions) =
      some (calculate_support transactions a) ∧
    List.lookup (s \ a) (support_cache transactions) =
      some (calculate_support transactions (s \ a)) := by
  have hsmem := mem_all_itemsets.mp hs
  have hAmem : a ∈ all_itemsets transactions 1 3 := by
    rw [mem_all_itemsets]
    exact ⟨ha.trans hsmem.1, Finset.card_pos.mpr hane,
      le_trans (Finset.card_le_card ha) hsmem.2.2⟩
  have hCne : (s \ a).Nonempty := by
    rw [Finset.sdiff_nonempty]
    intro hcontr
    exact hans (Finset.Subset.antisymm ha hcontr)
  have hCmem : s \ a ∈ all_itemsets transactions 1 3 := by
    rw [mem_all_itemsets]
    exact ⟨Finset.sdiff_subset.trans hsmem.1, Finset.card_pos.mpr hCne,
      le_trans (Finset.card_le_card Finset.sdiff_subset) hsmem.2.2⟩
  exact ⟨lookup_support_cache hAmem, lookup_support_cache hCmem⟩

unseal Rat.mul Rat.inv in
theorem claim6_witness :
    List.lookup ({0} : Finset ℕ) (support_cache exT) =
      some (calculate_support exT {0}) ∧
    List.lookup (({0, 1} : Finset ℕ) \ {0}) (support_cache exT) =
      some (calculate_support exT ({0, 1} \ {0})) :=
  claim6 exT {0, 1} (by decide) (by decide) {0} (by decide) (by decide)
    (by decide)

/-- C7: requesting a support on an empty transaction list fails with an
error (Python's `ZeroDivisionError` from line 28) instead of producing a
value; callers must guarantee at least one transaction. -/
theorem claim7 (itemset : Finset α) :
    calculate_supportE ([] : List (Finset α)) itemset =
      Except.error "ZeroDivisionError: division by zero" := rfl

/-- C8 counterexample: the claim fails for `min_size = 0`, a size range the
function accepts: `all_itemsets` then emits the empty itemset
(`combinations` of size 0 yields the empty selection). -/
theorem claim8_counterexample :
    (∅ : Finset ℕ) ∈ all_itemsets [({0} : Finset ℕ)] 0 3 := by decide

/-- C8 amended: for every size range whose lower bound is at least 1 (in
particular the default range `[1, 3]` used by `generate_rules`), no itemset
yielded by `all_itemsets` is the empty set. -/
theorem claim8 (transactions : List (Finset α)) (min_size max_size : ℕ)
    (hmn : 1 ≤ min_size) (s : Finset α)
    (hs : s ∈ all_itemsets transactions min_size max_size) : s ≠ ∅ := by
  have h := (mem_all_itemsets.mp hs).2.1
  intro hcontr
  rw [hcontr, Finset.card_empty] at h
  omega

theorem claim8_witness : ({0} : Finset ℕ) ≠ ∅ :=
  claim8 exT 1 3 (by decide) {0} (by decide)

/-- C9: `preprocess_texts` returns exactly one transaction per record; the
transaction of record `i` contains exactly the whitespace-split tokens of
the record that do not strip to nothing, stripped of surrounding punctuation
and lowercased.  A record yielding zero items simply gives the empty
transaction (no error). -/
theorem claim9 (texts : List (List Char)) (i : ℕ) (w : List Char)
    (hi : i < texts.length) :
    (preprocess_texts texts).length = texts.length ∧
    (w ∈ (preprocess_texts texts).getD i ∅ ↔
      ∃ token ∈ splitWs (texts.getD i []), pyStrip token ≠ [] ∧
        w = pyLower (pyStrip token)) := by
  constructor
  · exact List.length_map _ _
  · have hi2 : i < (preprocess_texts texts).length := by
      unfold preprocess_texts
      rw [List.length_map]
      exact hi
    rw [List.getD_eq_getElem?_getD, List.getD_eq_getElem?_getD,
      List.getElem?_eq_getElem hi]
    rw [List.getElem?_eq_getElem hi2]
    unfold preprocess_texts
    simp only [List.getElem_map, Option.getD_some, List.mem_toFinset,
      List.mem_map, List.mem_filter, Bool.not_eq_true', List.isEmpty_eq_false]
    constructor
    · rintro ⟨token, ⟨htok, hne⟩, rfl⟩
      exact ⟨token, htok, hne, rfl⟩
    · rintro ⟨token, htok, hne, rfl⟩
      exact ⟨token, ⟨htok, hne⟩, rfl⟩

theorem claim9_witness :
    (preprocess_texts [['h', 'i', '.']]).length = [['h', 'i', '.']].length ∧
    (['h', 'i'] ∈ (preprocess_texts [['h', 'i', '.']]).getD 0 ∅ ↔
      ∃ token ∈ splitWs ([['h', 'i', '.']].getD 0 []), pyStrip token ≠ [] ∧
        ['h', 'i'] = pyLower (pyStrip token)) :=
  claim9 [['h', 'i', '.']] 0 ['h', 'i'] (by decide)

/-- C10: on an empty transaction list `generate_rules` returns the empty
list and raises no error: the item universe is empty, `all_itemsets` yields
nothing, the support cache stays empty, and `calculate_support` (whose
division could fail) is never invoked. -/
theorem claim10 (min_support min_confidence : ℚ) :
    all_itemsets ([] : List (Finset α)) 1 3 = [] ∧
    support_cache ([] : List (Finset α)) = [] ∧
    generate_rules ([] : List (Finset α)) min_support min_confidence = [] :=
  ⟨rfl, rfl, rfl⟩

end AssocRules
